import Mathlib

/-!
Verification of the `BitManipulation` header
(`src/BitManipulation/include/BitManipulation.h`).

Machine integers are modelled as bit patterns: natural numbers below
`2 ^ 32`.  A signed `int` whose pattern is `p` has the two's-complement
value `toInt32 p`.  Arithmetic that can wrap is reduced modulo `2 ^ 32`
explicitly.  The pointer arguments of `SwapNumbers` are modelled by a
memory `ℕ → ℕ` mapping locations to stored patterns.
-/

namespace BitManipulation

/-- `2 ^ 32`, the number of 32-bit patterns. -/
def W : ℕ := 4294967296

/-- Two's-complement value of the 32-bit pattern `p`. -/
def toInt32 (p : ℕ) : ℤ :=
  if p < 2147483648 then (p : ℤ) else (p : ℤ) - 4294967296

/-- Source: `return x && (!x & (x - 1));` on a 32-bit `int` with pattern
`x`.  `x - 1` wraps modulo `2 ^ 32`; `!x` is the `int` `1` when `x = 0`
and `0` otherwise; the whole `&&` result is the returned `bool`, whose
right operand is the integer `!x & (x - 1)` read as a boolean. -/
def IsPowerOfTwo (x : ℕ) : Bool :=
  decide (x ≠ 0) && decide ((if x = 0 then 1 else 0) &&& ((x + (W - 1)) % W) ≠ 0)

/-- Source: `*a ^= *b; *b ^= *a; *a ^= *b;` acting on a memory `mem`
from locations to stored 32-bit patterns. -/
def SwapNumbers (mem : ℕ → ℕ) (a b : ℕ) : ℕ → ℕ :=
  let m1 := Function.update mem a (mem a ^^^ mem b)
  let m2 := Function.update m1 b (m1 b ^^^ m1 a)
  Function.update m2 a (m2 a ^^^ m2 b)

/-- Source: `const unsigned int num = n ^ (n >> 1); return (((num + 1) & num) == 0);`
with `num + 1` wrapping modulo `2 ^ 32`. -/
def BitsAreInAltOrder (n : ℕ) : Bool :=
  let num := n ^^^ (n >>> 1)
  ((num + 1) % W) &&& num == 0

/-- Source: `return ((a ^ b) == 0);`. -/
def CompareIntegers (a b : ℕ) : Bool :=
  (a ^^^ b) == 0

/-- Arithmetic (sign-propagating) right shift of a 32-bit pattern,
as mainstream compilers implement `>>` on a negative `int`: the
vacated high bits are filled with copies of the sign bit. -/
def sar32 (p k : ℕ) : ℕ :=
  if p < 2147483648 then p >>> k else (p >>> k) + (W - W >>> k)

/-- Source: `int x = nSeed; x ^= x << 13; x ^= x >> 17; x ^= x << 5; return x;`.
`x` is a signed `int`, so the left shifts wrap modulo `2 ^ 32` and the
right shift is arithmetic (`sar32`); the unsigned seed is stored into
`x` pattern-preservingly. -/
def GeneratePseudoRandomNumber (nSeed : ℕ) : ℕ :=
  let x0 := nSeed % W
  let x1 := x0 ^^^ ((x0 <<< 13) % W)
  let x2 := x1 ^^^ sar32 x1 17
  x2 ^^^ ((x2 <<< 5) % W)

/-- Source: `return (x & 1) == 0;`. -/
def IsNumberEven (x : ℕ) : Bool :=
  (x &&& 1) == 0

/-- Source: `return (x | 0);` — the `int` result is converted to the
returned `bool`, i.e. the function returns whether `x | 0` is nonzero. -/
def IsAtLeastOneBitSet (x : ℕ) : Bool :=
  (x ||| 0) != 0

/-- Source: the Kernighan loop
`while (nCopy != 0) { nCount++; nCopy &= (nCopy - 1); }` returning
`nCount`; expressed as the equivalent recursion on the loop variable. -/
def GetBitCount (x : ℕ) : ℕ :=
  if x = 0 then 0 else 1 + GetBitCount (x &&& (x - 1))
decreasing_by
  exact Nat.lt_of_le_of_lt Nat.and_le_right
    (Nat.sub_lt (Nat.pos_of_ne_zero (by assumption)) Nat.one_pos)

/-- The Kernighan loop with an explicit fuel bound: `none` means the
fuel was exhausted before the loop reached `nCopy = 0`. -/
def getBitCountFuel : ℕ → ℕ → Option ℕ
  | _, 0 => some 0
  | 0, _ + 1 => none
  | fuel + 1, x + 1 => Option.map (fun c => c + 1) (getBitCountFuel fuel ((x + 1) &&& x))

/-! ### Specification-side definitions -/

/-- The number of set bits of `n` (the mathematical population count),
defined by the standard binary recursion. -/
def popCountSpec (n : ℕ) : ℕ :=
  if n = 0 then 0 else n % 2 + popCountSpec (n / 2)
decreasing_by
  exact Nat.div_lt_self (Nat.pos_of_ne_zero (by assumption)) (by norm_num)

/-- The bits of `n` strictly alternate: below the highest set bit,
adjacent bits of `n` always differ (bits above the highest set bit are
the ignored leading zeros). -/
def AltBitsSpec (n : ℕ) : Prop :=
  ∀ i < Nat.log2 n, n.testBit i ≠ n.testBit (i + 1)

instance (n : ℕ) : Decidable (AltBitsSpec n) :=
  Nat.decidableBallLT _ _

/-- Every bit position of `m` below a set bit is itself set. -/
def BitsDownClosed (m : ℕ) : Prop :=
  ∀ i, m.testBit (i + 1) = true → m.testBit i = true

/-- The xorshift computation exactly as the claim words it: all three
shifts act on the 32-bit unsigned value, arithmetic modulo `2 ^ 32`,
so the right shift is a logical shift. -/
def xorshiftUnsignedSpec (seed : ℕ) : ℕ :=
  let x0 := seed % W
  let x1 := x0 ^^^ ((x0 <<< 13) % W)
  let x2 := x1 ^^^ (x1 >>> 17)
  x2 ^^^ ((x2 <<< 5) % W)

/-- The xorshift computation as the amended claim words it: the left
shifts wrap modulo `2 ^ 32` and the right shift is a right shift of the
signed value, filling the vacated positions with the sign bit
(bit 31). -/
def xorshiftSignedSpec (seed : ℕ) : ℕ :=
  let x0 := seed % W
  let x1 := x0 ^^^ ((x0 <<< 13) % W)
  let x2 := x1 ^^^ ((x1 >>> 17) ||| (if x1.testBit 31 then W - W >>> 17 else 0))
  x2 ^^^ ((x2 <<< 5) % W)

/-! ### Helper lemmas -/

theorem W_eq : W = 2 ^ 32 := by norm_num [W]

theorem xor_cancel_left (A B : ℕ) : B ^^^ (A ^^^ B) = A := by
  rw [Nat.xor_comm A B, ← Nat.xor_assoc, Nat.xor_self, Nat.zero_xor]

theorem xor_eq_zero_iff (a b : ℕ) : a ^^^ b = 0 ↔ a = b := by
  constructor
  · intro hc
    have h2 := congrArg (fun t => t ^^^ b) hc
    simpa [Nat.xor_assoc, Nat.xor_self, Nat.xor_zero, Nat.zero_xor] using h2
  · rintro rfl
    exact Nat.xor_self a

theorem sar32_eq_or (p : ℕ) (hp : p < W) :
    sar32 p 17 = (p >>> 17) ||| (if p.testBit 31 then W - W >>> 17 else 0) := by
  have e31 : (2147483648 : ℕ) = 2 ^ 31 := by norm_num
  have hW17 : W - W >>> 17 = 2 ^ 15 * (2 ^ 17 - 1) := by
    norm_num [W, Nat.shiftRight_eq_div_pow]
  unfold sar32
  by_cases h31 : p < 2147483648
  · have ht : p.testBit 31 = false := Nat.testBit_lt_two_pow (e31 ▸ h31)
    rw [if_pos h31, ht]
    simp
  · have hp' : p < 4294967296 := by simpa [W] using hp
    have ht : p.testBit 31 = true := by
      rw [Nat.testBit_to_div_mod]
      have hdiv : p / 2147483648 = 1 := by
        apply Nat.div_eq_of_lt_le <;> omega
      rw [← e31]
      simp [hdiv]
    rw [if_neg h31, ht, if_pos rfl]
    have hb : p >>> 17 < 2 ^ 15 := by
      rw [Nat.shiftRight_eq_div_pow]
      apply Nat.div_lt_of_lt_mul
      calc p < W := hp
        _ = 2 ^ 17 * 2 ^ 15 := by norm_num [W]
    rw [hW17, Nat.add_comm, Nat.mul_add_lt_is_or hb, Nat.or_comm]

theorem and_pred_lt (x : ℕ) (hx : x ≠ 0) : x &&& (x - 1) < x :=
  Nat.lt_of_le_of_lt Nat.and_le_right (Nat.sub_lt (Nat.pos_of_ne_zero hx) Nat.one_pos)

theorem GetBitCount_zero : GetBitCount 0 = 0 := by
  rw [GetBitCount, if_pos rfl]

theorem GetBitCount_of_ne (x : ℕ) (h : x ≠ 0) :
    GetBitCount x = 1 + GetBitCount (x &&& (x - 1)) := by
  rw [GetBitCount, if_neg h]

theorem getBitCountFuel_zero (fuel : ℕ) : getBitCountFuel fuel 0 = some 0 := by
  cases fuel <;> rfl

theorem getBitCountFuel_succ (fuel x : ℕ) :
    getBitCountFuel (fuel + 1) (x + 1) =
      Option.map (fun c => c + 1) (getBitCountFuel fuel ((x + 1) &&& x)) := rfl

theorem getBitCountFuel_eq :
    ∀ x fuel : ℕ, x ≤ fuel → getBitCountFuel fuel x = some (GetBitCount x) := by
  intro x
  induction x using Nat.strong_induction_on with
  | _ x ih =>
    intro fuel hfu
    cases x with
    | zero => rw [getBitCountFuel_zero, GetBitCount_zero]
    | succ y =>
      cases fuel with
      | zero => omega
      | succ f =>
        have hlt : (y + 1) &&& y < y + 1 := by
          have h := and_pred_lt (y + 1) (Nat.succ_ne_zero y)
          simpa using h
        have hle : (y + 1) &&& y ≤ f := by
          have h1 : (y + 1) &&& y ≤ y := Nat.and_le_right
          omega
        rw [getBitCountFuel_succ, ih _ hlt f hle,
          GetBitCount_of_ne (y + 1) (Nat.succ_ne_zero y)]
        simp [Nat.add_sub_cancel, Nat.add_comm]

theorem and_decomp (a b : ℕ) :
    a &&& b = 2 * (a / 2 &&& b / 2) + (if a % 2 = 1 ∧ b % 2 = 1 then 1 else 0) := by
  have h := Nat.div_add_mod (a &&& b) 2
  rw [Nat.and_div_two] at h
  by_cases hc : a % 2 = 1 ∧ b % 2 = 1
  · rw [if_pos hc]
    have h2 : (a &&& b) % 2 = 1 := Nat.and_mod_two_eq_one.mpr hc
    omega
  · rw [if_neg hc]
    have h2 : (a &&& b) % 2 ≠ 1 := fun hh => hc (Nat.and_mod_two_eq_one.mp hh)
    omega

theorem odd_and_self_sub_one (q : ℕ) : (2 * q + 1) &&& (2 * q) = 2 * q := by
  have h := and_decomp (2 * q + 1) (2 * q)
  have e1 : (2 * q + 1) / 2 = q := by omega
  have e2 : 2 * q / 2 = q := by omega
  rw [e1, e2, Nat.and_self] at h
  have e3 : ¬((2 * q + 1) % 2 = 1 ∧ 2 * q % 2 = 1) := by omega
  rw [if_neg e3] at h
  omega

theorem even_and_sub_one (q : ℕ) :
    (2 * q) &&& (2 * q - 1) = 2 * (q &&& (q - 1)) := by
  have h := and_decomp (2 * q) (2 * q - 1)
  have e1 : 2 * q / 2 = q := by omega
  have e2 : (2 * q - 1) / 2 = q - 1 := by omega
  rw [e1, e2] at h
  have e3 : ¬(2 * q % 2 = 1 ∧ (2 * q - 1) % 2 = 1) := by omega
  rw [if_neg e3] at h
  omega

theorem popCountSpec_zero : popCountSpec 0 = 0 := by
  rw [popCountSpec, if_pos rfl]

theorem popCountSpec_two_mul (q : ℕ) : popCountSpec (2 * q) = popCountSpec q := by
  by_cases hq : q = 0
  · subst hq; norm_num
  · conv_lhs => rw [popCountSpec]
    rw [if_neg (by omega : ¬2 * q = 0)]
    have e1 : 2 * q % 2 = 0 := by omega
    have e2 : 2 * q / 2 = q := by omega
    rw [e1, e2, Nat.zero_add]

theorem popCountSpec_two_mul_add_one (q : ℕ) :
    popCountSpec (2 * q + 1) = popCountSpec q + 1 := by
  conv_lhs => rw [popCountSpec]
  rw [if_neg (by omega : ¬2 * q + 1 = 0)]
  have e1 : (2 * q + 1) % 2 = 1 := by omega
  have e2 : (2 * q + 1) / 2 = q := by omega
  rw [e1, e2, Nat.add_comm]

theorem popCountSpec_and_pred :
    ∀ x : ℕ, x ≠ 0 → popCountSpec x = popCountSpec (x &&& (x - 1)) + 1 := by
  intro x
  induction x using Nat.strong_induction_on with
  | _ x ih =>
    intro hx
    rcases Nat.even_or_odd x with he | ho
    · obtain ⟨q, hq⟩ := he
      have hq2 : x = 2 * q := by omega
      have hqne : q ≠ 0 := by omega
      rw [hq2, even_and_sub_one q, popCountSpec_two_mul, popCountSpec_two_mul]
      exact ih q (by omega) hqne
    · obtain ⟨q, hq⟩ := ho
      have hq2 : x = 2 * q + 1 := by omega
      have e : 2 * q + 1 - 1 = 2 * q := by omega
      rw [hq2, e, odd_and_self_sub_one, popCountSpec_two_mul_add_one,
        popCountSpec_two_mul]

theorem bitsDownClosed_le {m : ℕ} (hdc : BitsDownClosed m) :
    ∀ d i, m.testBit (i + d) = true → m.testBit i = true := by
  intro d
  induction d with
  | zero => intro i h; exact h
  | succ d ihd =>
    intro i h
    have h2 : m.testBit (i + 1 + d) = true := by
      have e : i + 1 + d = i + (d + 1) := by omega
      rw [e]; exact h
    exact hdc i (ihd (i + 1) h2)

theorem and_succ_eq_zero_iff : ∀ m : ℕ, m &&& (m + 1) = 0 ↔ ∃ k, m = 2 ^ k - 1 := by
  intro m
  induction m using Nat.strong_induction_on with
  | _ m ih =>
    by_cases hm : m = 0
    · subst hm
      exact iff_of_true (Nat.zero_and 1) ⟨0, by norm_num⟩
    · rcases Nat.even_or_odd m with he | ho
      · obtain ⟨q, hq0⟩ := he
        have hand : m &&& (m + 1) = m := by
          have h := and_decomp m (m + 1)
          have e1 : m / 2 = q := by omega
          have e2 : (m + 1) / 2 = q := by omega
          have e3 : ¬(m % 2 = 1 ∧ (m + 1) % 2 = 1) := by omega
          rw [e1, e2, if_neg e3, Nat.and_self] at h
          omega
        constructor
        · intro h
          rw [hand] at h
          exact absurd h hm
        · rintro ⟨k, hk⟩
          exfalso
          cases k with
          | zero =>
            norm_num at hk
            exact hm hk
          | succ j =>
            rw [pow_succ] at hk
            have h1 : 1 ≤ 2 ^ j := Nat.one_le_two_pow
            omega
      · obtain ⟨q, hq0⟩ := ho
        have hand : m &&& (m + 1) = 2 * (q &&& (q + 1)) := by
          have h := and_decomp m (m + 1)
          have e1 : m / 2 = q := by omega
          have e2 : (m + 1) / 2 = q + 1 := by omega
          have e3 : ¬(m % 2 = 1 ∧ (m + 1) % 2 = 1) := by omega
          rw [e1, e2, if_neg e3] at h
          omega
        rw [hand]
        have ihq := ih q (by omega)
        constructor
        · intro h
          have hq0' : q &&& (q + 1) = 0 := by omega
          obtain ⟨j, hj⟩ := ihq.mp hq0'
          refine ⟨j + 1, ?_⟩
          rw [pow_succ]
          have h1 : 1 ≤ 2 ^ j := Nat.one_le_two_pow
          omega
        · rintro ⟨k, hk⟩
          cases k with
          | zero =>
            norm_num at hk
            omega
          | succ j =>
            rw [pow_succ] at hk
            have h1 : 1 ≤ 2 ^ j := Nat.one_le_two_pow
            have hqj : q = 2 ^ j - 1 := by omega
            have h0 : q &&& (q + 1) = 0 := ihq.mpr ⟨j, hqj⟩
            omega

theorem testBit_log2_self {n : ℕ} (hn : n ≠ 0) : n.testBit n.log2 = true := by
  rw [Nat.testBit_to_div_mod]
  have h1 : 2 ^ n.log2 ≤ n := Nat.log2_self_le hn
  have h2 : n < 2 ^ (n.log2 + 1) := Nat.lt_log2_self
  have hdiv : n / 2 ^ n.log2 = 1 := by
    apply Nat.div_eq_of_lt_le
    · omega
    · rw [pow_succ] at h2; omega
  simp [hdiv]

theorem exists_pow_sub_one_iff (m : ℕ) :
    (∃ k, m = 2 ^ k - 1) ↔ BitsDownClosed m := by
  constructor
  · rintro ⟨k, rfl⟩ i hi
    rw [Nat.testBit_two_pow_sub_one] at hi ⊢
    simp only [decide_eq_true_eq] at hi ⊢
    omega
  · intro hdc
    by_cases hm : m = 0
    · exact ⟨0, by norm_num [hm]⟩
    · refine ⟨m.log2 + 1, ?_⟩
      apply Nat.eq_of_testBit_eq
      intro i
      rw [Nat.testBit_two_pow_sub_one]
      by_cases hi : i < m.log2 + 1
      · have htop : m.testBit m.log2 = true := testBit_log2_self hm
        have e : i + (m.log2 - i) = m.log2 := by omega
        have hbit : m.testBit i = true :=
          bitsDownClosed_le hdc (m.log2 - i) i (by rw [e]; exact htop)
        rw [hbit]
        exact (decide_eq_true hi).symm
      · have hlt : m < 2 ^ i := by
          have h2 : m < 2 ^ (m.log2 + 1) := Nat.lt_log2_self
          have h3 : 2 ^ (m.log2 + 1) ≤ 2 ^ i :=
            Nat.pow_le_pow_right (by norm_num) (by omega)
          omega
        rw [Nat.testBit_lt_two_pow hlt]
        exact (decide_eq_false hi).symm

theorem testBit_xor_shift (n i : ℕ) :
    (n ^^^ (n >>> 1)).testBit i = (n.testBit i ^^ n.testBit (i + 1)) := by
  rw [Nat.testBit_xor, Nat.testBit_shiftRight, Nat.add_comm 1 i]

theorem bool_xor_eq_true_iff (a b : Bool) : (a ^^ b) = true ↔ a ≠ b := by
  cases a <;> cases b <;> decide

theorem downclosed_iff_alt (n : ℕ) :
    BitsDownClosed (n ^^^ (n >>> 1)) ↔ AltBitsSpec n := by
  constructor
  · intro hdc i hi
    have hn : n ≠ 0 := by
      intro h0
      rw [h0, Nat.log2_zero] at hi
      exact Nat.not_lt_zero i hi
    have htop : (n ^^^ (n >>> 1)).testBit n.log2 = true := by
      rw [testBit_xor_shift]
      have h1 : n.testBit n.log2 = true := testBit_log2_self hn
      have h2 : n.testBit (n.log2 + 1) = false :=
        Nat.testBit_lt_two_pow Nat.lt_log2_self
      rw [h1, h2]
      rfl
    have e : i + (n.log2 - i) = n.log2 := by omega
    have hbit : (n ^^^ (n >>> 1)).testBit i = true :=
      bitsDownClosed_le hdc (n.log2 - i) i (by rw [e]; exact htop)
    rw [testBit_xor_shift] at hbit
    exact (bool_xor_eq_true_iff _ _).mp hbit
  · intro halt i hbit
    rw [testBit_xor_shift] at hbit ⊢
    have hne : n.testBit (i + 1) ≠ n.testBit (i + 2) := by
      have e : i + 1 + 1 = i + 2 := rfl
      rw [e] at hbit
      exact (bool_xor_eq_true_iff _ _).mp hbit
    have hn : n ≠ 0 := by
      intro h0
      rw [h0] at hne
      simp [Nat.zero_testBit] at hne
    have hset : n.testBit (i + 1) = true ∨ n.testBit (i + 2) = true := by
      cases hb1 : n.testBit (i + 1) with
      | true => exact Or.inl rfl
      | false =>
        cases hb2 : n.testBit (i + 2) with
        | true => exact Or.inr rfl
        | false => rw [hb1, hb2] at hne; exact absurd rfl hne
    have hile : i < n.log2 := by
      rcases hset with hb | hb
      · have hge := Nat.testBit_implies_ge hb
        have hlog := (Nat.le_log2 hn).mpr hge
        omega
      · have hge := Nat.testBit_implies_ge hb
        have hlog := (Nat.le_log2 hn).mpr hge
        omega
    exact (bool_xor_eq_true_iff _ _).mpr (halt i hile)

theorem wrapped_and_iff (m : ℕ) (hm : m < W) :
    ((m + 1) % W) &&& m = 0 ↔ ∃ k, m = 2 ^ k - 1 := by
  by_cases htop : m = W - 1
  · constructor
    · intro _
      exact ⟨32, by rw [htop]; norm_num [W]⟩
    · intro _
      subst htop
      have e : (W - 1 + 1) % W = 0 := by norm_num [W]
      rw [e, Nat.zero_and]
  · have hm' : m < 4294967296 := by simpa [W] using hm
    have ht' : m ≠ 4294967295 := by simpa [W] using htop
    have hlt : m + 1 < W := by simp only [W]; omega
    rw [Nat.mod_eq_of_lt hlt, Nat.and_comm]
    exact and_succ_eq_zero_iff m

theorem getBitCount_eq_popCount_aux : ∀ x : ℕ, GetBitCount x = popCountSpec x := by
  intro x
  induction x using Nat.strong_induction_on with
  | _ x ih =>
    by_cases hx : x = 0
    · subst hx; rw [GetBitCount_zero, popCountSpec_zero]
    · rw [GetBitCount_of_ne x hx, ih _ (and_pred_lt x hx),
        popCountSpec_and_pred x hx, Nat.add_comm]

/-! ### Claim theorems -/

/-- Claim C1.  The source line `return x && (!x & (x - 1));` misplaces a
parenthesis: whenever `x` is nonzero `!x` is `0`, so `!x & (x - 1)` is
`0` and the function returns `false`; for `x = 0` the left operand is
already `false`.  Hence `IsPowerOfTwo` returns `false` on every input,
contradicting the claim that `IsPowerOfTwo(2^n)` is `true`. -/
theorem isPowerOfTwo_always_false :
    IsPowerOfTwo 2 = false ∧ ∀ x : ℕ, IsPowerOfTwo x = false := by
  have h : ∀ x : ℕ, IsPowerOfTwo x = false := by
    intro x
    unfold IsPowerOfTwo
    by_cases hx : x = 0
    · simp [hx]
    · simp [hx]
  exact ⟨h 2, h⟩

/-- Claim C3.  `IsAtLeastOneBitSet` returns `true` exactly when the
signed 32-bit value of its argument is nonzero: `x | 0` equals `x`, and
the implicit `int`-to-`bool` conversion tests it against zero. -/
theorem isAtLeastOneBitSet_iff (x : ℕ) (hx : x < W) :
    IsAtLeastOneBitSet x = true ↔ toInt32 x ≠ 0 := by
  have hx' : x < 4294967296 := by simpa [W] using hx
  unfold IsAtLeastOneBitSet toInt32
  rw [Nat.or_zero, bne_iff_ne]
  split <;> omega

theorem isAtLeastOneBitSet_iff_witness :
    IsAtLeastOneBitSet 5 = true ∧ IsAtLeastOneBitSet 0 = false := by
  constructor
  · exact (isAtLeastOneBitSet_iff 5 (by decide)).mpr (by decide)
  · decide

/-- Claim C4.  When the two pointers refer to distinct locations, the
XOR-swap sequence exchanges the stored values: afterwards location `a`
holds the old value of `b` and location `b` holds the old value of
`a`. -/
theorem swapNumbers_swaps (mem : ℕ → ℕ) (a b : ℕ) (hab : a ≠ b) :
    SwapNumbers mem a b a = mem b ∧ SwapNumbers mem a b b = mem a := by
  have hba : b ≠ a := hab.symm
  unfold SwapNumbers
  simp only [Function.update_same, Function.update_noteq hba,
    Function.update_noteq hab]
  constructor
  · rw [xor_cancel_left]
  · rw [xor_cancel_left]

theorem swapNumbers_swaps_witness :
    SwapNumbers (fun n => n + 10) 0 1 0 = 11 ∧
    SwapNumbers (fun n => n + 10) 0 1 1 = 10 := by
  have h := swapNumbers_swaps (fun n => n + 10) 0 1 (by decide)
  exact ⟨h.1, h.2⟩

/-- Claim C5.  When both pointer arguments alias the same location, the
XOR-swap sequence zeroes that location: the first `*a ^= *b` computes
`v ^ v = 0` and the remaining steps keep it at `0`. -/
theorem swapNumbers_aliased_zeroes (mem : ℕ → ℕ) (a : ℕ) :
    SwapNumbers mem a a a = 0 := by
  unfold SwapNumbers
  simp [Function.update_same, Nat.xor_self]

/-- Claim C9.  `IsNumberEven` returns `true` exactly when the least
significant bit of its argument is `0`, which for every 32-bit pattern
coincides with evenness of the two's-complement value. -/
theorem isNumberEven_iff (x : ℕ) (hx : x < W) :
    (IsNumberEven x = true ↔ x.testBit 0 = false) ∧
    (IsNumberEven x = true ↔ toInt32 x % 2 = 0) := by
  have hx' : x < 4294967296 := by simpa [W] using hx
  have hmod : IsNumberEven x = true ↔ x % 2 = 0 := by
    unfold IsNumberEven
    rw [Nat.and_one_is_mod, beq_iff_eq]
  constructor
  · rw [hmod, Nat.testBit_zero, decide_eq_false_iff_not]
    omega
  · rw [hmod]
    unfold toInt32
    split <;> omega

theorem isNumberEven_iff_witness :
    IsNumberEven 4294967294 = true ∧ IsNumberEven 4 = true ∧
    IsNumberEven 7 = false := by
  refine ⟨(isNumberEven_iff 4294967294 (by decide)).2.mpr (by decide), by decide, by decide⟩

/-- Claim C10.  `CompareIntegers a b` returns exactly the result of the
direct equality comparison `a == b`: the XOR of two patterns is zero
exactly when the patterns are equal. -/
theorem compareIntegers_eq_eq (a b : ℕ) :
    CompareIntegers a b = decide (a = b) := by
  unfold CompareIntegers
  rw [Bool.eq_iff_iff]
  simp only [beq_iff_eq, decide_eq_true_eq]
  exact xor_eq_zero_iff a b

/-- Claim C2, counterexample.  At seed `262144 = 2^18` the first XOR
step sets bit 31, so the source's `x >> 17` (an arithmetic shift of the
signed `int x`) differs from the logical shift the claim describes, and
the two computations return different values. -/
theorem generatePseudoRandomNumber_ne_unsigned_xorshift :
    GeneratePseudoRandomNumber 262144 = 2156118082 ∧
    xorshiftUnsignedSpec 262144 = 2156675138 ∧
    GeneratePseudoRandomNumber 262144 ≠ xorshiftUnsignedSpec 262144 := by
  refine ⟨by decide, by decide, by decide⟩

/-- Claim C2, amended.  `GeneratePseudoRandomNumber` computes the
xorshift sequence on the signed 32-bit value: the left shifts wrap
modulo `2 ^ 32`, and the right shift propagates the sign bit (bit 31)
into the vacated positions. -/
theorem generatePseudoRandomNumber_eq_signed_xorshift (seed : ℕ) :
    GeneratePseudoRandomNumber seed = xorshiftSignedSpec seed := by
  have hW0 : 0 < W := by norm_num [W]
  have h0 : seed % W < W := Nat.mod_lt _ hW0
  have h1 : seed % W ^^^ ((seed % W) <<< 13 % W) < W := by
    rw [W_eq] at h0 ⊢
    exact Nat.xor_lt_two_pow h0 (W_eq ▸ Nat.mod_lt _ hW0)
  simp only [GeneratePseudoRandomNumber, xorshiftSignedSpec]
  rw [sar32_eq_or _ h1]

/-- Claim C6.  For every 32-bit value, `BitsAreInAltOrder n` returns
`true` exactly when the bits of `n` strictly alternate: below the
highest set bit, adjacent bits always differ (so `0b1010` and `0` give
`true` and `0b1011` gives `false`). -/
theorem bitsAreInAltOrder_iff (n : ℕ) (hn : n < W) :
    BitsAreInAltOrder n = true ↔ AltBitsSpec n := by
  have hm : n ^^^ (n >>> 1) < W := by
    rw [W_eq] at hn ⊢
    refine Nat.xor_lt_two_pow hn ?_
    have h1 : n >>> 1 ≤ n := by
      rw [Nat.shiftRight_eq_div_pow]
      exact Nat.div_le_self n (2 ^ 1)
    omega
  simp only [BitsAreInAltOrder]
  rw [beq_iff_eq, wrapped_and_iff _ hm, exists_pow_sub_one_iff, downclosed_iff_alt]

theorem bitsAreInAltOrder_iff_witness :
    BitsAreInAltOrder 10 = true ∧ BitsAreInAltOrder 11 = false ∧
    BitsAreInAltOrder 0 = true := by
  refine ⟨?_, ?_, ?_⟩
  · apply (bitsAreInAltOrder_iff 10 (by decide)).mpr
    have hl : Nat.log2 10 = 3 := by
      have h1 : 3 ≤ Nat.log2 10 := (Nat.le_log2 (by norm_num)).mpr (by norm_num)
      have h2 : Nat.log2 10 < 4 := (Nat.log2_lt (by norm_num)).mpr (by norm_num)
      omega
    intro i hi
    rw [hl] at hi
    interval_cases i <;> decide
  · have h := bitsAreInAltOrder_iff 11 (by decide)
    have hl : Nat.log2 11 = 3 := by
      have h1 : 3 ≤ Nat.log2 11 := (Nat.le_log2 (by norm_num)).mpr (by norm_num)
      have h2 : Nat.log2 11 < 4 := (Nat.log2_lt (by norm_num)).mpr (by norm_num)
      omega
    have hna : ¬ AltBitsSpec 11 := by
      intro ha
      have hb := ha 0 (by rw [hl]; norm_num)
      exact hb (by decide)
    cases hb : BitsAreInAltOrder 11 with
    | false => rfl
    | true => exact absurd (h.mp hb) hna
  · apply (bitsAreInAltOrder_iff 0 (by decide)).mpr
    intro i hi
    rw [Nat.log2_zero] at hi
    exact absurd hi (Nat.not_lt_zero i)

/-- Claim C7.  `GetBitCount` returns the number of set bits of its
argument, and in particular `GetBitCount 0 = 0`, `GetBitCount 7 = 3`,
`GetBitCount 255 = 8` and `GetBitCount (2^31) = 1`. -/
theorem getBitCount_eq_popCount :
    (∀ x : ℕ, GetBitCount x = popCountSpec x) ∧
    GetBitCount 0 = 0 ∧ GetBitCount 7 = 3 ∧ GetBitCount 255 = 8 ∧
    GetBitCount 2147483648 = 1 := by
  have hval : ∀ v k : ℕ, getBitCountFuel v v = some k → GetBitCount v = k := by
    intro v k hk
    have h := getBitCountFuel_eq v v (Nat.le_refl v)
    rw [h] at hk
    exact Option.some_inj.mp hk
  refine ⟨getBitCount_eq_popCount_aux, GetBitCount_zero, ?_, ?_, ?_⟩
  · exact hval 7 3 (by decide)
  · exact hval 255 8 (by decide)
  · exact hval 2147483648 1 (by decide)

/-- Claim C8.  The Kernighan loop terminates on every input: each
iteration `x &= x - 1` strictly decreases a nonzero `x`, and running
the loop with fuel `x` already reaches the fixpoint, returning the
total function `GetBitCount`. -/
theorem getBitCount_terminates :
    (∀ x : ℕ, x ≠ 0 → x &&& (x - 1) < x) ∧
    (∀ x : ℕ, getBitCountFuel x x = some (GetBitCount x)) :=
  ⟨and_pred_lt, fun x => getBitCountFuel_eq x x (Nat.le_refl x)⟩

theorem getBitCount_terminates_witness :
    (5 : ℕ) &&& 4 < 5 ∧ getBitCountFuel 5 5 = some (GetBitCount 5) := by
  refine ⟨?_, getBitCount_terminates.2 5⟩
  have h := getBitCount_terminates.1 5 (by decide)
  simpa using h

end BitManipulation
